import Mathlib

/-!
# wbr: white background remover (src/main.cpp)

A shallow embedding of `removeWhiteBackground`, `generateOutputPath` and `main`.

* Bytes (`unsigned char`, `uint8_t`) are natural numbers below 256; narrowing to
  eight bits is an explicit `% 256`.
* `int` is the 32-bit signed type: an `int` product beyond `INT_MAX` has no defined
  result and is `none`.
* `float` is IEEE-754 binary32 with round-to-nearest-even.  How the weighted sum of a
  pixel is evaluated is left to the build (`FloatEval`): every operation rounded on its
  own, a product fused into the sum that consumes it, or intermediates kept wider.  Only
  non-negative finite values occur; a value is a dyadic rational `m / 2 ^ k`.
* `std::filesystem::path` follows the C++17 decomposition rules for the generic
  format with `/` as the only separator and no root name (POSIX).
-/

namespace Wbr

/-! ## binary32 arithmetic on non-negative values -/

/-- Number of low bits that must be dropped from `n` to leave at most 24 significant
bits: the number of halvings until the value is below `2 ^ 24`. -/
def excessBits : Nat → Nat → Nat
  | 0, _ => 0
  | fuel + 1, n => if n < 2 ^ 24 then 0 else excessBits fuel (n / 2) + 1

/-- Round the integer `n` to 24 significant bits, to nearest, ties to even. -/
def roundNE24 (n : Nat) : Nat :=
  let s := excessBits n n
  let q := n / 2 ^ s
  let r := n % 2 ^ s
  if 2 ^ s < 2 * r ∨ (2 ^ s = 2 * r ∧ q % 2 = 1) then (q + 1) * 2 ^ s else q * 2 ^ s

/-- A non-negative finite binary32 value `m / 2 ^ k`. -/
structure F32 where
  m : Nat
  k : Nat
deriving DecidableEq, Repr

namespace F32

/-- The binary32 value nearest to the exact dyadic `m / 2 ^ k`. -/
def round (m k : Nat) : F32 := ⟨roundNE24 m, k⟩

/-- Conversion `int → float` of a non-negative integer (exact below `2 ^ 24`). -/
def ofNat (n : Nat) : F32 := round n 0

/-- The exact product of two values, before any rounding. -/
def mulExact (a b : F32) : F32 := ⟨a.m * b.m, a.k + b.k⟩

/-- The exact sum of two values, before any rounding. -/
def addExact (a b : F32) : F32 :=
  let k := max a.k b.k
  ⟨a.m * 2 ^ (k - a.k) + b.m * 2 ^ (k - b.k), k⟩

/-- Rounding of an exact intermediate result to binary32. -/
def rnd (a : F32) : F32 := round a.m a.k

/-- Single-precision product: the exact product, rounded. -/
def mul (a b : F32) : F32 := rnd (mulExact a b)

/-- Single-precision sum: the exact sum, rounded. -/
def add (a b : F32) : F32 := rnd (addExact a b)

/-- Fused multiply-add `fmaf(a, b, c)`: the exact `a * b + c`, rounded once. -/
def fma (a b c : F32) : F32 := rnd (addExact (mulExact a b) c)

/-- Integer part (truncation toward zero of a non-negative value). -/
def trunc (a : F32) : Nat := a.m / 2 ^ a.k

/-- The conversion `static_cast<uint8_t>` of a float: integer part, kept to eight bits. -/
def toUInt8 (a : F32) : Nat := a.trunc % 256

end F32

/-- The literal `0.299f`, bit pattern `0x3E991687`. -/
def w299 : F32 := ⟨10032775, 25⟩

/-- The literal `0.587f`, bit pattern `0x3F1645A2`. -/
def w587 : F32 := ⟨9848226, 24⟩

/-- The literal `0.114f`, bit pattern `0x3DE978D5`. -/
def w114 : F32 := ⟨15300821, 27⟩

/-! ## removeWhiteBackground -/

/-- Largest value of the 32-bit `int`. -/
def INT_MAX : Nat := 2147483647

/-- An `int` multiplication of non-negative operands; signed overflow is undefined
behaviour and yields `none`. -/
def intMul (a b : Nat) : Option Nat :=
  if a * b ≤ INT_MAX then some (a * b) else none

/-- The local `int outputChannels = 4`. -/
def outputChannels : Nat := 4

/-- How a build evaluates the `float` expression `0.299f * r + 0.587f * g + 0.114f * b`.
The language lets a compiler contract a product and the sum that consumes it into one fused
multiply-add, and lets it keep intermediates in a wider format; each sum can absorb one
product. -/
inductive FloatEval
  | strict
  | fuseFirst
  | fuseSecond
  | fuseThird
  | fuseFirstThird
  | fuseSecondThird
  | wide
deriving DecidableEq, Repr

/-- Every evaluation of the expression, in the order of the constructors. -/
def FloatEval.all : List FloatEval :=
  [FloatEval.strict, FloatEval.fuseFirst, FloatEval.fuseSecond, FloatEval.fuseThird,
    FloatEval.fuseFirstThird, FloatEval.fuseSecondThird, FloatEval.wide]

/-- The weighted sum `0.299f * r + 0.587f * g + 0.114f * b` as a build evaluates it, the
bytes converted `unsigned char → int → float`, the sums taken left to right:
`strict` rounds every product and every sum to binary32; `fuseFirst` and `fuseSecond`
fuse the first, respectively the second, product into the first sum; `fuseThird` fuses
the third product into the second sum; `fuseFirstThird` and `fuseSecondThird` do both;
`wide` keeps every intermediate in `double` or extended precision, where these products
and sums are exact. -/
def weightedSum (ev : FloatEval) (r g b : Nat) : F32 :=
  let x := F32.ofNat r
  let y := F32.ofNat g
  let z := F32.ofNat b
  match ev with
  | FloatEval.strict =>
    F32.add (F32.add (F32.mul w299 x) (F32.mul w587 y)) (F32.mul w114 z)
  | FloatEval.fuseFirst =>
    F32.add (F32.fma w299 x (F32.mul w587 y)) (F32.mul w114 z)
  | FloatEval.fuseSecond =>
    F32.add (F32.fma w587 y (F32.mul w299 x)) (F32.mul w114 z)
  | FloatEval.fuseThird =>
    F32.fma w114 z (F32.add (F32.mul w299 x) (F32.mul w587 y))
  | FloatEval.fuseFirstThird =>
    F32.fma w114 z (F32.fma w299 x (F32.mul w587 y))
  | FloatEval.fuseSecondThird =>
    F32.fma w114 z (F32.fma w587 y (F32.mul w299 x))
  | FloatEval.wide =>
    F32.addExact (F32.addExact (F32.mulExact w299 x) (F32.mulExact w587 y))
      (F32.mulExact w114 z)

/-- The `uint8_t grayValue` of the pixel whose first byte is at `srcIndex`. -/
def grayValue (ev : FloatEval) (channels : Nat) (imageData : List Nat) (srcIndex : Nat) : Nat :=
  if channels ≥ 3 then
    F32.toUInt8 (weightedSum ev (imageData.getD srcIndex 0)
      (imageData.getD (srcIndex + 1) 0) (imageData.getD (srcIndex + 2) 0))
  else
    imageData.getD srcIndex 0

/-- The statement `uint8_t alpha = 255 - grayValue`: an `int` subtraction narrowed to
eight bits. -/
def alphaOf (grayValue : Nat) : Nat :=
  Int.toNat (((255 : Int) - (grayValue : Int)) % 256)

/-- Body of the inner loop for the pixel `(x, y)`: four stores into `outputData`.  The
index expressions are `int` in the source; the loop is meant for the buffer `allocOutput`
yields (as in `encoderCall`), whose `int` size bounds every index. -/
def pixelBody (ev : FloatEval) (width channels : Nat) (imageData outputData : List Nat)
    (y x : Nat) : List Nat :=
  let srcIndex := (y * width + x) * channels
  let dstIndex := (y * width + x) * outputChannels
  let alpha := alphaOf (grayValue ev channels imageData srcIndex)
  (((outputData.set dstIndex 0).set (dstIndex + 1) 0).set (dstIndex + 2) 0).set
    (dstIndex + 3) alpha

/-- The inner loop `for (x = 0; x < width; x++)` of row `y`, run for its first `n`
iterations. -/
def rowLoop (ev : FloatEval) (width channels : Nat) (imageData outputData : List Nat)
    (y n : Nat) : List Nat :=
  (List.range n).foldl (fun out x => pixelBody ev width channels imageData out y x) outputData

/-- The outer loop `for (y = 0; y < height; y++)`, run for its first `n` iterations. -/
def rowsLoop (ev : FloatEval) (width channels : Nat) (imageData outputData : List Nat)
    (n : Nat) : List Nat :=
  (List.range n).foldl (fun out y => rowLoop ev width channels imageData out y width) outputData

/-- The pixel loop of `removeWhiteBackground` (both nested loops) on the buffer
`outputData`. -/
def pixelLoop (ev : FloatEval)
    (width height channels : Nat) (imageData outputData : List Nat) : List Nat :=
  rowsLoop ev width channels imageData outputData height

/-- The arguments `removeWhiteBackground` passes to `stbi_write_png`. -/
structure PngWrite where
  w : Nat
  h : Nat
  comp : Nat
  data : List Nat
  stride : Nat
deriving DecidableEq, Repr

/-- Modelled from the spec: the result of a successful `stbi_load` (stb_image.h is not
among the sources): width, height, channel count and the flat byte buffer, row-major and
channel-interleaved. -/
structure Decoded where
  width : Nat
  height : Nat
  channels : Nat
  imageData : List Nat
deriving DecidableEq, Repr

/-- Modelled from the spec: a valid decoded buffer as `stbi_load` produces it has positive
width and height, a channel count of 1, 2, 3 or 4, and a buffer of
`width * height * channels` bytes. -/
def Decoded.Valid (d : Decoded) : Prop :=
  1 ≤ d.width ∧ 1 ≤ d.height ∧ 1 ≤ d.channels ∧ d.channels ≤ 4 ∧
    d.imageData.length = d.width * d.height * d.channels ∧ ∀ b ∈ d.imageData, b < 256

/-- Allocation `new unsigned char[width * height * outputChannels]`: the size is an
`int` expression; the fresh memory is uninitialised, its contents given by `heap`. -/
def allocOutput (width height : Nat) (heap : Nat → Nat) : Option (List Nat) :=
  match intMul width height with
  | none => none
  | some wh =>
    match intMul wh outputChannels with
    | none => none
    | some n => some ((List.range n).map heap)

/-- The part of `removeWhiteBackground` between a successful `stbi_load` and the call
of `stbi_write_png`: allocate, run the pixel loop, and pass the buffer on. -/
def encoderCall (ev : FloatEval) (d : Decoded) (heap : Nat → Nat) : Option PngWrite :=
  match allocOutput d.width d.height heap with
  | none => none
  | some outputData =>
    some ⟨d.width, d.height, outputChannels,
      pixelLoop ev d.width d.height d.channels d.imageData outputData,
      d.width * outputChannels⟩

/-- The function `removeWhiteBackground`: `loaded` is the result of `stbi_load`
(`none` when it returns a null pointer), `stbi_write_png` the integer the encoder
returns for the call it receives.  The value is the returned `bool`. -/
def removeWhiteBackground (ev : FloatEval) (loaded : Option Decoded) (heap : Nat → Nat)
    (stbi_write_png : PngWrite → Int) : Option Bool :=
  match loaded with
  | none => some false
  | some d =>
    match encoderCall ev d heap with
    | none => none
    | some call => if stbi_write_png call = 0 then some false else some true

/-! ## generateOutputPath -/

namespace Path

/-- The member `filename()` of `std::filesystem::path`: the characters after the last
separator (empty when the path ends in a separator). -/
def filename (p : List Char) : List Char :=
  (p.reverse.takeWhile (fun c => c != '/')).reverse

/-- The part of `f` before its last period. -/
def beforeLastDot (f : List Char) : List Char :=
  ((f.reverse.dropWhile (fun c => c != '.')).drop 1).reverse

/-- The member `stem()` of `std::filesystem::path` (C++17): the filename itself when it is
`.` or `..` or has no period other than a leading one, else the filename up to its last
period. -/
def stem (p : List Char) : List Char :=
  let f := filename p
  if f = ['.'] ∨ f = ['.', '.'] then f
  else
    match f with
    | [] => []
    | c :: rest => if '.' ∈ rest then c :: beforeLastDot rest else f

/-- The member `parent_path()` of `std::filesystem::path` (C++17, as libstdc++ computes
it): the path itself when it has no relative part, else the path up to the end of the
element before the last one: the final filename and the separators before it are dropped,
a root directory is kept as `/`. -/
def parent_path (p : List Char) : List Char :=
  if p.all (fun c => c == '/') then p
  else
    let dir := (p.reverse.dropWhile (fun c => c != '/')).dropWhile (fun c => c == '/')
    if dir = [] then (if p.head? = some '/' then ['/'] else []) else dir.reverse

end Path

/-- The function `generateOutputPath`. -/
def generateOutputPath (inputPath : List Char) : List Char :=
  let stem := Path.stem inputPath
  let parentPath := Path.parent_path inputPath
  if parentPath = [] then stem ++ "_nobg.png".toList
  else parentPath ++ "/".toList ++ stem ++ "_nobg.png".toList

/-! ## main -/

/-- The calls and messages of `main` that can be observed, in program order. -/
inductive Action
  | printUsage (programName : List Char)
  | reportMissingInput (inputPath : List Char)
  | generateOutputPath (inputPath : List Char)
  | removeWhiteBackground (inputPath outputPath : List Char)
deriving DecidableEq, Repr

/-- A finished run of `main`: the returned status and the steps taken. -/
structure Run where
  status : Nat
  actions : List Action
deriving DecidableEq, Repr

/-- What a run of `main` meets outside the program: `fileExists` answers
`std::filesystem::exists` (`none` when it throws `filesystem_error`, which nothing
catches), `stbi_load` decodes the file at a path (`none` for a null pointer), `heap`
gives the contents of freshly allocated memory, and `stbi_write_png` is the integer the
encoder returns for the call it receives for a path. -/
structure Env where
  fileExists : List Char → Option Bool
  stbi_load : List Char → Option Decoded
  heap : Nat → Nat
  stbi_write_png : List Char → PngWrite → Int

/-- The function `main` on the argument vector `argv` (`argc` is its length).  The result
is `none` when `main` does not return a status: `std::filesystem::exists` threw, or the
call of `removeWhiteBackground` did not run to a result.  The only place where an output
file is written is the call of `removeWhiteBackground`. -/
def main (ev : FloatEval) (env : Env) (argv : List (List Char)) : Option Run :=
  if argv.length ≠ 2 then
    some ⟨1, [Action.printUsage (argv.getD 0 [])]⟩
  else
    let inputPath := argv.getD 1 []
    match env.fileExists inputPath with
    | none => none
    | some false => some ⟨1, [Action.reportMissingInput inputPath]⟩
    | some true =>
      let outputPath := generateOutputPath inputPath
      match removeWhiteBackground ev (env.stbi_load inputPath) env.heap
          (env.stbi_write_png outputPath) with
      | none => none
      | some false =>
        some ⟨1, [Action.generateOutputPath inputPath,
          Action.removeWhiteBackground inputPath outputPath]⟩
      | some true =>
        some ⟨0, [Action.generateOutputPath inputPath,
          Action.removeWhiteBackground inputPath outputPath]⟩

/-! ## Auxiliary definitions for the statements -/

/-- The byte the pixel loop leaves at index `j` of the output buffer. -/
def outputByte (ev : FloatEval) (channels : Nat) (imageData : List Nat) (j : Nat) : Nat :=
  if j % 4 = 3 then alphaOf (grayValue ev channels imageData (j / 4 * channels)) else 0

/-- Number of colour (non-alpha) channels of a pixel: grey and grey+alpha sources have
one, RGB and RGBA sources have three. -/
def colourChannels (channels : Nat) : Nat := if channels ≥ 3 then 3 else 1

/-- Grey levels `L` at which the weighted sum `0.299f*L + 0.587f*L + 0.114f*L` falls just
below `L`, for each evaluation. -/
def greyOffByOne (ev : FloatEval) : List Nat :=
  match ev with
  | FloatEval.strict => [37, 61, 74, 93, 111, 122, 148, 186, 215, 222, 233, 244, 253]
  | FloatEval.fuseFirst => [61, 63, 122, 126, 225, 233, 244, 252]
  | FloatEval.fuseSecond => []
  | FloatEval.fuseThird =>
    [37, 61, 74, 93, 111, 122, 148, 186, 197, 215, 222, 233, 244, 253]
  | FloatEval.fuseFirstThird =>
    [27, 54, 61, 63, 108, 122, 126, 197, 216, 225, 233, 244, 252]
  | FloatEval.fuseSecondThird => []
  | FloatEval.wide => []

/-- The value `n`, rounded to binary32 when the flag says so. -/
def roundIf (b : Bool) (n : Nat) : Nat := if b then roundNE24 n else n

/-- The weighted sum in units of `2 ^ -27`, with a flag for each of the five operations
(first product, second product, first sum, third product, second sum) telling whether its
result is rounded to binary32. -/
def sumUnits (f1 f2 f3 f4 f5 : Bool) (r g b : Nat) : Nat :=
  roundIf f5 (roundIf f3 (roundIf f1 (10032775 * r) + roundIf f2 (9848226 * g) * 2) * 4 +
    roundIf f4 (15300821 * b))

/-- The weighted sum in units of `2 ^ -27` for every evaluation: the flags say which
operations round. -/
def weightedSumUnits (ev : FloatEval) (r g b : Nat) : Nat :=
  match ev with
  | FloatEval.strict => sumUnits true true true true true r g b
  | FloatEval.fuseFirst => sumUnits false true true true true r g b
  | FloatEval.fuseSecond => sumUnits true false true true true r g b
  | FloatEval.fuseThird => sumUnits true true true false true r g b
  | FloatEval.fuseFirstThird => sumUnits false true true false true r g b
  | FloatEval.fuseSecondThird => sumUnits true false true false true r g b
  | FloatEval.wide => sumUnits false false false false false r g b

/-! ## The pixel loop in closed form -/

theorem pixelBody_length (ev : FloatEval) (width channels : Nat) (imageData outputData : List Nat)
    (y x : Nat) :
    (pixelBody ev width channels imageData outputData y x).length = outputData.length := by
  simp [pixelBody]

theorem set_four_getElem? (out : List Nat) (p a j : Nat) (hfit : (p + 1) * 4 ≤ out.length) :
    ((((out.set (p * 4) 0).set (p * 4 + 1) 0).set (p * 4 + 2) 0).set (p * 4 + 3) a)[j]? =
      if p * 4 ≤ j ∧ j < (p + 1) * 4 then some (if j % 4 = 3 then a else 0)
      else out[j]? := by
  simp only [List.getElem?_set, List.length_set]
  by_cases h3 : p * 4 + 3 = j
  · subst h3
    have h1 : p * 4 + 3 < out.length := by omega
    have h2 : p * 4 ≤ p * 4 + 3 ∧ p * 4 + 3 < (p + 1) * 4 := by omega
    have h4 : (p * 4 + 3) % 4 = 3 := by omega
    simp [h1, h2, h4]
  · by_cases h2 : p * 4 + 2 = j
    · subst h2
      have h1 : p * 4 + 2 < out.length := by omega
      have h5 : p * 4 ≤ p * 4 + 2 ∧ p * 4 + 2 < (p + 1) * 4 := by omega
      have h4 : ¬ (p * 4 + 2) % 4 = 3 := by omega
      simp [h1, h5, h4]
    · by_cases h1 : p * 4 + 1 = j
      · subst h1
        have h6 : p * 4 + 1 < out.length := by omega
        have h5 : p * 4 ≤ p * 4 + 1 ∧ p * 4 + 1 < (p + 1) * 4 := by omega
        have h4 : ¬ (p * 4 + 1) % 4 = 3 := by omega
        simp [h6, h5, h4]
      · by_cases h0 : p * 4 = j
        · subst h0
          have h6 : p * 4 < out.length := by omega
          have h5 : p * 4 ≤ p * 4 ∧ p * 4 < (p + 1) * 4 := by omega
          have h4 : ¬ (p * 4) % 4 = 3 := by omega
          simp [h6, h5, h4]
        · have hout : ¬ (p * 4 ≤ j ∧ j < (p + 1) * 4) := by omega
          simp [h3, h2, h1, h0, hout]

theorem pixelBody_getElem? (ev : FloatEval) (width channels : Nat) (imageData outputData : List Nat)
    (y x : Nat) (hfit : (y * width + x + 1) * 4 ≤ outputData.length) (j : Nat) :
    (pixelBody ev width channels imageData outputData y x)[j]? =
      if (y * width + x) * 4 ≤ j ∧ j < (y * width + x + 1) * 4 then
        some (outputByte ev channels imageData j)
      else outputData[j]? := by
  simp only [pixelBody, outputChannels]
  rw [set_four_getElem? _ _ _ _ hfit]
  by_cases hj : (y * width + x) * 4 ≤ j ∧ j < (y * width + x + 1) * 4
  · have hq : j / 4 = y * width + x := by
      generalize y * width + x = p at hj
      omega
    simp [hj, outputByte, hq]
  · simp [hj]

theorem rowLoop_spec (ev : FloatEval) (width channels : Nat) (imageData : List Nat) (y : Nat) :
    ∀ (n : Nat) (outputData : List Nat), n ≤ width →
      (y * width + width) * 4 ≤ outputData.length →
      (rowLoop ev width channels imageData outputData y n).length = outputData.length ∧
      ∀ j, (rowLoop ev width channels imageData outputData y n)[j]? =
        if y * width * 4 ≤ j ∧ j < (y * width + n) * 4 then
          some (outputByte ev channels imageData j)
        else outputData[j]? := by
  intro n
  induction n with
  | zero =>
    intro outputData _ _
    refine ⟨rfl, fun j => ?_⟩
    have hj : ¬ (y * width * 4 ≤ j ∧ j < y * width * 4) := by omega
    simp [rowLoop, hj]
  | succ n ih =>
    intro outputData hn hfit
    obtain ⟨hlen, hget⟩ := ih outputData (by omega) hfit
    have hstep : rowLoop ev width channels imageData outputData y (n + 1) =
        pixelBody ev width channels imageData
          (rowLoop ev width channels imageData outputData y n) y n := by
      simp [rowLoop, List.range_succ, List.foldl_append]
    rw [hstep]
    refine ⟨by rw [pixelBody_length, hlen], fun j => ?_⟩
    rw [pixelBody_getElem? _ _ _ _ _ _ _ (by rw [hlen]; omega), hget]
    generalize y * width = r
    by_cases h1 : (r + n) * 4 ≤ j ∧ j < (r + n + 1) * 4
    · have h2 : r * 4 ≤ j ∧ j < (r + (n + 1)) * 4 := by omega
      simp [h1, h2]
    · by_cases h3 : r * 4 ≤ j ∧ j < (r + n) * 4
      · have h2 : r * 4 ≤ j ∧ j < (r + (n + 1)) * 4 := by omega
        simp [h1, h2, h3]
      · have h2 : ¬ (r * 4 ≤ j ∧ j < (r + (n + 1)) * 4) := by omega
        simp [h1, h2, h3]

theorem rowsLoop_spec (ev : FloatEval)
    (width channels : Nat) (imageData : List Nat) (height : Nat) :
    ∀ (n : Nat) (outputData : List Nat), n ≤ height →
      height * width * 4 ≤ outputData.length →
      (rowsLoop ev width channels imageData outputData n).length = outputData.length ∧
      ∀ j, (rowsLoop ev width channels imageData outputData n)[j]? =
        if j < n * width * 4 then some (outputByte ev channels imageData j)
        else outputData[j]? := by
  intro n
  induction n with
  | zero =>
    intro outputData _ _
    refine ⟨rfl, fun j => ?_⟩
    simp [rowsLoop]
  | succ n ih =>
    intro outputData hn hfit
    obtain ⟨hlen, hget⟩ := ih outputData (by omega) hfit
    have hstep : rowsLoop ev width channels imageData outputData (n + 1) =
        rowLoop ev width channels imageData
          (rowsLoop ev width channels imageData outputData n) n width := by
      simp [rowsLoop, List.range_succ, List.foldl_append]
    have hmono : (n + 1) * width ≤ height * width := Nat.mul_le_mul_right width hn
    have hsucc : (n + 1) * width = n * width + width := Nat.succ_mul n width
    obtain ⟨hlen2, hget2⟩ := rowLoop_spec ev width channels imageData n width
      (rowsLoop ev width channels imageData outputData n) (le_refl _) (by rw [hlen]; omega)
    rw [hstep]
    refine ⟨by rw [hlen2, hlen], fun j => ?_⟩
    rw [hget2, hget, hsucc]
    generalize n * width = r
    by_cases h1 : r * 4 ≤ j ∧ j < (r + width) * 4
    · have h2 : j < (r + width) * 4 := h1.2
      simp [h1, h2]
    · by_cases h3 : j < r * 4
      · have h2 : j < (r + width) * 4 := by omega
        simp [h1, h2, h3]
      · have h2 : ¬ j < (r + width) * 4 := by omega
        simp [h1, h2, h3]

/-- On a buffer of `width * height * 4` bytes the pixel loop overwrites every byte:
the result does not depend on the previous contents. -/
theorem pixelLoop_eq (ev : FloatEval)
    (width height channels : Nat) (imageData outputData : List Nat)
    (hlen : outputData.length = width * height * 4) :
    pixelLoop ev width height channels imageData outputData =
      (List.range (width * height * 4)).map (outputByte ev channels imageData) := by
  have hcomm : height * width * 4 = width * height * 4 := by rw [Nat.mul_comm height width]
  obtain ⟨hl, hget⟩ := rowsLoop_spec ev width channels imageData height height outputData
    (le_refl _) (by rw [hlen, hcomm])
  apply List.ext_getElem?
  intro j
  rw [pixelLoop, hget, hcomm, List.getElem?_map]
  by_cases hj : j < width * height * 4
  · simp [hj, List.getElem?_range hj]
  · have h1 : outputData.length ≤ j := by omega
    have h2 : (List.range (width * height * 4)).length ≤ j := by simp; omega
    simp [hj, List.getElem?_eq_none h1, List.getElem?_eq_none h2]

theorem pixelLoop_length (ev : FloatEval)
    (width height channels : Nat) (imageData outputData : List Nat)
    (hlen : outputData.length = width * height * 4) :
    (pixelLoop ev width height channels imageData outputData).length = width * height * 4 := by
  rw [pixelLoop_eq _ _ _ _ _ _ hlen]
  simp

theorem pixelLoop_getElem? (ev : FloatEval)
    (width height channels : Nat) (imageData outputData : List Nat)
    (hlen : outputData.length = width * height * 4) (j : Nat) (hj : j < width * height * 4) :
    (pixelLoop ev width height channels imageData outputData)[j]? =
      some (outputByte ev channels imageData j) := by
  rw [pixelLoop_eq _ _ _ _ _ _ hlen, List.getElem?_map, List.getElem?_range hj]
  rfl

/-! ## Rounding error and the range of the weighted sum -/

theorem excessBits_le (fuel : Nat) :
    ∀ (n t : Nat), n < 2 ^ (24 + t) → excessBits fuel n ≤ t := by
  induction fuel with
  | zero => intro n t _; simp [excessBits]
  | succ fuel ih =>
    intro n t h
    unfold excessBits
    split
    · exact Nat.zero_le _
    · rename_i hge
      cases t with
      | zero => exact absurd h hge
      | succ t =>
        have h2 : n / 2 < 2 ^ (24 + t) := by
          have hp : 2 ^ (24 + (t + 1)) = 2 ^ (24 + t) * 2 := by
            rw [← Nat.add_assoc, Nat.pow_succ]
          omega
        have := ih (n / 2) t h2
        omega

/-- Rounding to 24 significant bits moves a value below `2 ^ (24 + t)` by at most
`2 ^ t`. -/
theorem roundNE24_near (n t : Nat) (h : n < 2 ^ (24 + t)) :
    roundNE24 n ≤ n + 2 ^ t ∧ n ≤ roundNE24 n + 2 ^ t := by
  have hs : excessBits n n ≤ t := excessBits_le n n t h
  have hpow : 2 ^ excessBits n n ≤ 2 ^ t := Nat.pow_le_pow_right (by decide) hs
  have hpos : 0 < 2 ^ excessBits n n := Nat.two_pow_pos _
  have hdm := Nat.div_add_mod n (2 ^ excessBits n n)
  have hlt := Nat.mod_lt n hpos
  have hmul : (n / 2 ^ excessBits n n + 1) * 2 ^ excessBits n n =
      2 ^ excessBits n n * (n / 2 ^ excessBits n n) + 2 ^ excessBits n n := by
    rw [Nat.add_mul, Nat.one_mul, Nat.mul_comm]
  have hmul2 : n / 2 ^ excessBits n n * 2 ^ excessBits n n =
      2 ^ excessBits n n * (n / 2 ^ excessBits n n) := Nat.mul_comm _ _
  unfold roundNE24
  simp only
  split
  · rw [hmul]; omega
  · rw [hmul2]; omega

/-- Values below `2 ^ 24` are representable: rounding leaves them unchanged. -/
theorem roundNE24_small (n : Nat) (h : n < 2 ^ 24) : roundNE24 n = n := by
  have hs : excessBits n n = 0 := Nat.le_zero.mp (excessBits_le n n 0 h)
  have h1 : n % 1 = 0 := Nat.mod_one n
  simp [roundNE24, hs, h1]

theorem div_two_pow_succ (n e : Nat) : n / 2 ^ (e + 1) = n / 2 / 2 ^ e := by
  rw [Nat.div_div_eq_div_mul, Nat.pow_succ, Nat.mul_comm]

/-- The shift chosen by `excessBits` leaves fewer than `2 ^ 24`. -/
theorem excessBits_div_lt (fuel : Nat) :
    ∀ n, n ≤ fuel → n / 2 ^ excessBits fuel n < 2 ^ 24 := by
  induction fuel with
  | zero =>
    intro n hn
    have : n = 0 := by omega
    subst this
    simp [excessBits]
  | succ fuel ih =>
    intro n hn
    unfold excessBits
    split
    · rename_i hlt
      simpa using hlt
    · rename_i hge
      have hge2 : 2 ^ 24 ≤ n := by omega
      have hhalf : n / 2 ≤ fuel := by
        have : (16777216 : Nat) = 2 ^ 24 := by norm_num
        omega
      have := ih (n / 2) hhalf
      rw [div_two_pow_succ]
      exact this

/-- The shift chosen by `excessBits` is the least one: a shifted value keeps 24 bits. -/
theorem excessBits_min (fuel : Nat) :
    ∀ n, excessBits fuel n = 0 ∨ 2 ^ 23 ≤ n / 2 ^ excessBits fuel n := by
  induction fuel with
  | zero => intro n; exact Or.inl rfl
  | succ fuel ih =>
    intro n
    unfold excessBits
    split
    · exact Or.inl rfl
    · rename_i hge
      right
      rw [div_two_pow_succ]
      rcases ih (n / 2) with h | h
      · rw [h]
        have : (16777216 : Nat) = 2 ^ 24 := by norm_num
        have h8 : (8388608 : Nat) = 2 ^ 23 := by norm_num
        simp only [Nat.pow_zero, Nat.div_one]
        omega
      · exact h

/-- The function `roundNE24` rounds to nearest at 24 bits of precision: the result is a
multiple of `2 ^ s` with a quotient of at most `2 ^ 24`, where `s` is the least shift that
brings `n` below `2 ^ 24`, and it lies within half of `2 ^ s` of `n`. -/
theorem roundNE24_nearest (n : Nat) :
    2 ^ excessBits n n ∣ roundNE24 n ∧
    roundNE24 n / 2 ^ excessBits n n ≤ 2 ^ 24 ∧
    (excessBits n n = 0 ∨ 2 ^ 23 ≤ n / 2 ^ excessBits n n) ∧
    2 * (roundNE24 n - n) ≤ 2 ^ excessBits n n ∧
    2 * (n - roundNE24 n) ≤ 2 ^ excessBits n n := by
  have hq := excessBits_div_lt n n (le_refl n)
  have hmin := excessBits_min n n
  have hpos : 0 < 2 ^ excessBits n n := Nat.two_pow_pos _
  have hdm := Nat.div_add_mod n (2 ^ excessBits n n)
  have hlt := Nat.mod_lt n hpos
  have hmul : (n / 2 ^ excessBits n n + 1) * 2 ^ excessBits n n =
      2 ^ excessBits n n * (n / 2 ^ excessBits n n) + 2 ^ excessBits n n := by
    rw [Nat.add_mul, Nat.one_mul, Nat.mul_comm]
  have hmul2 : n / 2 ^ excessBits n n * 2 ^ excessBits n n =
      2 ^ excessBits n n * (n / 2 ^ excessBits n n) := Nat.mul_comm _ _
  unfold roundNE24
  simp only
  split
  · rename_i hup
    refine ⟨Nat.dvd_mul_left _ _, ?_, hmin, ?_, ?_⟩
    · rw [Nat.mul_div_cancel _ hpos]
      omega
    · rw [hmul]; omega
    · rw [hmul]; omega
  · rename_i hdown
    refine ⟨Nat.dvd_mul_left _ _, ?_, hmin, ?_, ?_⟩
    · rw [Nat.mul_div_cancel _ hpos]
      omega
    · rw [hmul2]; omega
    · rw [hmul2]; omega

/-- The three weights are the binary32 values nearest to 0.299, 0.587 and 0.114: 24-bit
significands, off by less than half a unit in the last place. -/
theorem weights_nearest :
    (2 ^ 23 ≤ w299.m ∧ w299.m < 2 ^ 24 ∧
      2 * (1000 * w299.m - 299 * 2 ^ w299.k) < 1000 ∧
      2 * (299 * 2 ^ w299.k - 1000 * w299.m) < 1000) ∧
    (2 ^ 23 ≤ w587.m ∧ w587.m < 2 ^ 24 ∧
      2 * (1000 * w587.m - 587 * 2 ^ w587.k) < 1000 ∧
      2 * (587 * 2 ^ w587.k - 1000 * w587.m) < 1000) ∧
    (2 ^ 23 ≤ w114.m ∧ w114.m < 2 ^ 24 ∧
      2 * (1000 * w114.m - 114 * 2 ^ w114.k) < 1000 ∧
      2 * (114 * 2 ^ w114.k - 1000 * w114.m) < 1000) := by
  decide

/-- The list `FloatEval.all` names every evaluation. -/
theorem FloatEval.mem_all (ev : FloatEval) : ev ∈ FloatEval.all := by
  cases ev <;> decide

/-- The integer part of the weighted sum, with every rounding step spelled out. -/
theorem roundIf_near (f : Bool) (n t : Nat) (h : n < 2 ^ (24 + t)) :
    roundIf f n ≤ n + 2 ^ t ∧ n ≤ roundIf f n + 2 ^ t := by
  cases f
  · simp [roundIf]
  · simpa [roundIf] using roundNE24_near n t h

/-- The integer part of the weighted sum, with every rounding step spelled out. -/
theorem weightedSum_trunc (ev : FloatEval) (r g b : Nat) (hr : r < 256) (hg : g < 256)
    (hb : b < 256) :
    (weightedSum ev r g b).trunc = weightedSumUnits ev r g b / 2 ^ 27 := by
  have h1 : roundNE24 r = r := roundNE24_small r (by omega)
  have h2 : roundNE24 g = g := roundNE24_small g (by omega)
  have h3 : roundNE24 b = b := roundNE24_small b (by omega)
  cases ev <;>
    simp [weightedSum, weightedSumUnits, sumUnits, roundIf, F32.add, F32.mul, F32.fma,
      F32.rnd, F32.addExact, F32.mulExact, F32.ofNat, F32.round, F32.trunc, w299, w587, w114,
      h1, h2, h3, Nat.add_comm]

/-- Whatever operations round, the integer part of the weighted sum is at most 255, and it
is the integer part of the exact sum `(299 r + 587 g + 114 b) / 1000` or one less; one less
only where the exact sum is an integer. -/
theorem sumUnits_bounds (f1 f2 f3 f4 f5 : Bool) (r g b : Nat) (hr : r < 256) (hg : g < 256)
    (hb : b < 256) :
    sumUnits f1 f2 f3 f4 f5 r g b / 2 ^ 27 ≤ 255 ∧
    sumUnits f1 f2 f3 f4 f5 r g b / 2 ^ 27 ≤ (299 * r + 587 * g + 114 * b) / 1000 ∧
    (299 * r + 587 * g + 114 * b) / 1000 ≤ sumUnits f1 f2 f3 f4 f5 r g b / 2 ^ 27 + 1 ∧
    (sumUnits f1 f2 f3 f4 f5 r g b / 2 ^ 27 ≠ (299 * r + 587 * g + 114 * b) / 1000 →
      (299 * r + 587 * g + 114 * b) % 1000 = 0) := by
  unfold sumUnits
  have e1 := roundIf_near f1 (10032775 * r) 8 (by norm_num; omega)
  have e2 := roundIf_near f2 (9848226 * g) 8 (by norm_num; omega)
  have e3 := roundIf_near f4 (15300821 * b) 8 (by norm_num; omega)
  generalize roundIf f1 (10032775 * r) = p1 at e1 ⊢
  generalize roundIf f2 (9848226 * g) = p2 at e2 ⊢
  generalize roundIf f4 (15300821 * b) = p3 at e3 ⊢
  norm_num at e1 e2 e3
  have e4 := roundIf_near f3 (p1 + p2 * 2) 9 (by norm_num; omega)
  generalize roundIf f3 (p1 + p2 * 2) = s1 at e4 ⊢
  norm_num at e4
  have e5 := roundIf_near f5 (s1 * 4 + p3) 11 (by norm_num; omega)
  generalize roundIf f5 (s1 * 4 + p3) = s at e5 ⊢
  norm_num at e5
  norm_num
  omega

/-- The bounds of `sumUnits_bounds` for every evaluation of the source expression. -/
theorem weightedSum_trunc_bounds (ev : FloatEval) (r g b : Nat) (hr : r < 256)
    (hg : g < 256) (hb : b < 256) :
    (weightedSum ev r g b).trunc ≤ 255 ∧
    (weightedSum ev r g b).trunc ≤ (299 * r + 587 * g + 114 * b) / 1000 ∧
    (299 * r + 587 * g + 114 * b) / 1000 ≤ (weightedSum ev r g b).trunc + 1 ∧
    ((weightedSum ev r g b).trunc ≠ (299 * r + 587 * g + 114 * b) / 1000 →
      (299 * r + 587 * g + 114 * b) % 1000 = 0) := by
  rw [weightedSum_trunc ev r g b hr hg hb]
  cases ev <;> exact sumUnits_bounds _ _ _ _ _ r g b hr hg hb

/-! ## Reads, narrowing and the alpha byte -/

theorem alphaOf_of_le (g : Nat) (h : g ≤ 255) : alphaOf g = 255 - g := by
  unfold alphaOf
  omega

/-- The `int` difference `255 - grayValue` is never negative for an eight-bit
`grayValue`, so narrowing it changes nothing. -/
theorem alpha_no_underflow (g : Nat) (h : g ≤ 255) :
    0 ≤ (255 : Int) - (g : Int) ∧ ((255 : Int) - (g : Int)) % 256 = (255 : Int) - (g : Int) := by
  omega

/-- Every byte the loop body reads for pixel `i` lies inside a valid source buffer. -/
theorem src_index_lt (d : Decoded) (hd : d.Valid) (i k : Nat) (hi : i < d.width * d.height)
    (hk : k < d.channels) : i * d.channels + k < d.imageData.length := by
  obtain ⟨_, _, _, _, hlen, _⟩ := hd
  rw [hlen]
  have h1 : (i + 1) * d.channels ≤ d.width * d.height * d.channels :=
    Nat.mul_le_mul_right _ hi
  rw [Nat.add_mul, Nat.one_mul] at h1
  omega

theorem getD_lt_256 (d : Decoded) (hd : d.Valid) (j : Nat) : d.imageData.getD j 0 < 256 := by
  rw [List.getD_eq_getElem?_getD]
  by_cases hj : j < d.imageData.length
  · rw [List.getElem?_eq_getElem hj]
    exact hd.2.2.2.2.2 _ (List.getElem_mem _)
  · rw [List.getElem?_eq_none (by omega)]
    decide

theorem getElem?_eq_some_getD (l : List Nat) (j : Nat) (hj : j < l.length) :
    l[j]? = some (l.getD j 0) := by
  rw [List.getD_eq_getElem?_getD, List.getElem?_eq_getElem hj]
  rfl

theorem grayValue_le (ev : FloatEval) (d : Decoded) (hd : d.Valid) (j : Nat) :
    grayValue ev d.channels d.imageData j ≤ 255 := by
  unfold grayValue
  split
  · have := Nat.mod_lt (weightedSum ev (d.imageData.getD j 0) (d.imageData.getD (j + 1) 0)
      (d.imageData.getD (j + 2) 0)).trunc (show 0 < 256 by decide)
    unfold F32.toUInt8
    omega
  · have := getD_lt_256 d hd j
    omega

/-- For three or four channels the grey value is the integer part of the weighted
sum: narrowing to eight bits loses nothing. -/
theorem grayValue_rgb (ev : FloatEval)
    (channels : Nat) (imageData : List Nat) (j : Nat) (hc : 3 ≤ channels)
    (h0 : imageData.getD j 0 < 256) (h1 : imageData.getD (j + 1) 0 < 256)
    (h2 : imageData.getD (j + 2) 0 < 256) :
    grayValue ev channels imageData j =
      (weightedSum ev (imageData.getD j 0) (imageData.getD (j + 1) 0)
        (imageData.getD (j + 2) 0)).trunc := by
  have hb := (weightedSum_trunc_bounds ev _ _ _ h0 h1 h2).1
  unfold grayValue F32.toUInt8
  rw [if_pos hc]
  omega

theorem grayValue_grey (ev : FloatEval)
    (channels : Nat) (imageData : List Nat) (j : Nat) (hc : channels < 3) :
    grayValue ev channels imageData j = imageData.getD j 0 := by
  unfold grayValue
  rw [if_neg (by omega)]

/-- The alpha byte the loop stores for pixel `i`. -/
theorem pixelLoop_alpha (ev : FloatEval) (d : Decoded) (hd : d.Valid) (outputData : List Nat)
    (hout : outputData.length = d.width * d.height * 4) (i : Nat)
    (hi : i < d.width * d.height) :
    (pixelLoop ev d.width d.height d.channels d.imageData outputData)[4 * i + 3]? =
      some (255 - grayValue ev d.channels d.imageData (i * d.channels)) := by
  rw [pixelLoop_getElem? _ _ _ _ _ _ hout _ (by omega)]
  have h1 : (4 * i + 3) % 4 = 3 := by omega
  have h2 : (4 * i + 3) / 4 = i := by omega
  simp only [outputByte, h1, h2, if_true]
  rw [alphaOf_of_le _ (grayValue_le ev d hd _)]

/-- The colour bytes the loop stores for pixel `i` are zero. -/
theorem pixelLoop_rgb (ev : FloatEval) (d : Decoded) (outputData : List Nat)
    (hout : outputData.length = d.width * d.height * 4) (i k : Nat)
    (hi : i < d.width * d.height) (hk : k < 3) :
    (pixelLoop ev d.width d.height d.channels d.imageData outputData)[4 * i + k]? = some 0 := by
  rw [pixelLoop_getElem? _ _ _ _ _ _ hout _ (by omega)]
  have h1 : ¬ (4 * i + k) % 4 = 3 := by omega
  simp [outputByte, h1]

/-! ## Allocation and the encoder call -/

theorem allocOutput_of_fits (width height : Nat) (heap : Nat → Nat)
    (hfit : width * height * 4 ≤ INT_MAX) :
    allocOutput width height heap = some ((List.range (width * height * 4)).map heap) := by
  have h1 : width * height ≤ INT_MAX := by omega
  simp [allocOutput, intMul, outputChannels, h1, hfit]

theorem allocOutput_overflow (width height : Nat) (heap : Nat → Nat)
    (hbig : INT_MAX < width * height * 4) : allocOutput width height heap = none := by
  by_cases h1 : width * height ≤ INT_MAX
  · have h2 : ¬ width * height * 4 ≤ INT_MAX := by omega
    simp [allocOutput, intMul, outputChannels, h1, h2]
  · simp [allocOutput, intMul, h1]

theorem allocOutput_length (width height : Nat) (heap : Nat → Nat) (out : List Nat)
    (h : allocOutput width height heap = some out) : out.length = width * height * 4 := by
  by_cases hfit : width * height * 4 ≤ INT_MAX
  · rw [allocOutput_of_fits _ _ _ hfit] at h
    cases h
    simp
  · rw [allocOutput_overflow _ _ _ (by omega)] at h
    cases h

/-- Where the output size fits an `int`, the encoder receives the source dimensions, four
channels, row stride `width * 4` and the loop output, whatever the fresh memory held. -/
theorem encoderCall_of_fits (ev : FloatEval) (d : Decoded) (heap : Nat → Nat)
    (hfit : d.width * d.height * 4 ≤ INT_MAX) :
    encoderCall ev d heap = some ⟨d.width, d.height, 4,
      (List.range (d.width * d.height * 4)).map (outputByte ev d.channels d.imageData),
      d.width * 4⟩ := by
  unfold encoderCall
  rw [allocOutput_of_fits _ _ _ hfit]
  simp only [outputChannels]
  rw [pixelLoop_eq _ _ _ _ _ _ (by simp)]

theorem encoderCall_overflow (ev : FloatEval) (d : Decoded) (heap : Nat → Nat)
    (hbig : INT_MAX < d.width * d.height * 4) : encoderCall ev d heap = none := by
  unfold encoderCall
  rw [allocOutput_overflow _ _ _ hbig]

/-- Every `int` index expression of the loop body stays within `int` range and within
its buffer whenever the allocation succeeded. -/
theorem loop_indices_in_range (d : Decoded) (hd : d.Valid)
    (hfit : d.width * d.height * 4 ≤ INT_MAX) (y x : Nat) (hy : y < d.height)
    (hx : x < d.width) :
    (y * d.width + x) * d.channels + (d.channels - 1) < d.imageData.length ∧
    (y * d.width + x) * outputChannels + 3 < d.width * d.height * 4 ∧
    (y * d.width + x) * d.channels + 2 ≤ INT_MAX ∧
    (y * d.width + x) * outputChannels + 3 ≤ INT_MAX := by
  have hp : y * d.width + x < d.width * d.height := by
    have h1 : (y + 1) * d.width ≤ d.height * d.width := Nat.mul_le_mul_right _ hy
    rw [Nat.add_mul, Nat.one_mul, Nat.mul_comm d.height] at h1
    omega
  have hs := src_index_lt d hd _ (d.channels - 1) hp (by have := hd.2.2.1; omega)
  have hlen := hd.2.2.2.2.1
  have hc4 := hd.2.2.2.1
  have hc1 := hd.2.2.1
  have hle : d.width * d.height * d.channels ≤ d.width * d.height * 4 :=
    Nat.mul_le_mul_left _ hc4
  have hpc : (y * d.width + x) * d.channels ≤ (y * d.width + x) * 4 :=
    Nat.mul_le_mul_left _ hc4
  refine ⟨hs, ?_, ?_, ?_⟩
  · simp only [outputChannels]; omega
  · omega
  · simp only [outputChannels]; omega

/-! ## The pixel transform through the encoder call -/

/-- Where the output size fits an `int`, the encoder call happens, its buffer has
`w * h * 4` bytes and the alpha byte of pixel `i` is 255 minus the grey value. -/
theorem encoderCall_alpha (ev : FloatEval) (d : Decoded) (hd : d.Valid)
    (hfit : d.width * d.height * 4 ≤ INT_MAX) (heap : Nat → Nat) (i : Nat)
    (hi : i < d.width * d.height) :
    ∃ call, encoderCall ev d heap = some call ∧
      call.w = d.width ∧ call.h = d.height ∧ call.comp = 4 ∧ call.stride = d.width * 4 ∧
      call.data.length = d.width * d.height * 4 ∧
      call.data[4 * i + 3]? =
        some (255 - grayValue ev d.channels d.imageData (i * d.channels)) := by
  have hlen : ((List.range (d.width * d.height * 4)).map heap).length =
      d.width * d.height * 4 := by simp
  unfold encoderCall
  rw [allocOutput_of_fits _ _ _ hfit]
  exact ⟨_, rfl, rfl, rfl, rfl, rfl, pixelLoop_length ev _ _ _ _ _ hlen,
    pixelLoop_alpha ev d hd _ hlen i hi⟩

/-- For one or two channels and an output size that fits an `int`, the encoder receives
`255 - src[i * channels]` as the alpha of pixel `i`. -/
theorem grey_alpha_of_fits (ev : FloatEval) (d : Decoded) (hd : d.Valid)
    (hc : d.channels = 1 ∨ d.channels = 2) (hfit : d.width * d.height * 4 ≤ INT_MAX)
    (heap : Nat → Nat) (i : Nat) (hi : i < d.width * d.height) :
    ∃ call v, encoderCall ev d heap = some call ∧ d.imageData[i * d.channels]? = some v ∧
      call.data[4 * i + 3]? = some (255 - v) := by
  obtain ⟨call, hcall, _, _, _, _, _, ha⟩ := encoderCall_alpha ev d hd hfit heap i hi
  have h := src_index_lt d hd i 0 hi (by omega)
  refine ⟨call, d.imageData.getD (i * d.channels) 0, hcall,
    getElem?_eq_some_getD _ _ (by omega), ?_⟩
  rw [ha, grayValue_grey _ _ _ _ (by omega)]

/-- The 2x1 one-channel source `[0, 255]` reaches the encoder as `[0,0,0,255, 0,0,0,0]`. -/
theorem two_pixel_grey_source (ev : FloatEval) (heap : Nat → Nat) :
    encoderCall ev ⟨2, 1, 1, [0, 255]⟩ heap =
      some ⟨2, 1, 4, [0, 0, 0, 255, 0, 0, 0, 0], 8⟩ := by
  rw [encoderCall_of_fits _ _ _ (by decide)]
  cases ev <;> decide

/-- For an all-white source whose output size fits an `int`, every alpha is 0. -/
theorem all_white_of_fits (ev : FloatEval) (d : Decoded) (hd : d.Valid)
    (hwhite : ∀ i < d.width * d.height, ∀ k < colourChannels d.channels,
      d.imageData.getD (i * d.channels + k) 0 = 255)
    (hfit : d.width * d.height * 4 ≤ INT_MAX) (heap : Nat → Nat) (i : Nat)
    (hi : i < d.width * d.height) :
    ∃ call, encoderCall ev d heap = some call ∧ call.data[4 * i + 3]? = some 0 := by
  obtain ⟨call, hcall, _, _, _, _, _, ha⟩ := encoderCall_alpha ev d hd hfit heap i hi
  refine ⟨call, hcall, ?_⟩
  rw [ha]
  by_cases hc : 3 ≤ d.channels
  · have hk : colourChannels d.channels = 3 := by simp [colourChannels, hc]
    have w0 := hwhite i hi 0 (by omega)
    have w1 := hwhite i hi 1 (by omega)
    have w2 := hwhite i hi 2 (by omega)
    rw [Nat.add_zero] at w0
    rw [grayValue_rgb _ _ _ _ hc (getD_lt_256 d hd _) (getD_lt_256 d hd _)
      (getD_lt_256 d hd _), w0, w1, w2]
    cases ev <;> decide
  · have hk : colourChannels d.channels = 1 := by simp [colourChannels, hc]
    have w0 := hwhite i hi 0 (by omega)
    rw [Nat.add_zero] at w0
    rw [grayValue_grey _ _ _ _ (by omega), w0]

set_option maxRecDepth 1000000 in
/-- The grey levels at which each evaluation of the weighted sum falls below the level. -/
theorem weightedSum_grey (ev : FloatEval) :
    ∀ L < 256, (weightedSum ev L L L).trunc = if L ∈ greyOffByOne ev then L - 1 else L := by
  cases ev <;> decide

/-! ## Claims on the pixel transform -/

/-- C1 (failing input): the valid 32768 x 16384 two-channel (grey with alpha) source has
`2 ^ 29` pixels; the `int` expression `width * height * outputChannels` is
`2 ^ 31 = INT_MAX + 1` and overflows, so the pixel loop never gets an output buffer and no
alpha `255 - src[i * channels]` is stored for any pixel. -/
theorem grey_alpha_unreached_on_large_source :
    Decoded.Valid ⟨32768, 16384, 2, List.replicate (32768 * 16384 * 2) 0⟩ ∧
    INT_MAX < 32768 * 16384 * outputChannels ∧
    ∀ ev heap,
      encoderCall ev ⟨32768, 16384, 2, List.replicate (32768 * 16384 * 2) 0⟩ heap = none := by
  refine ⟨⟨by decide, by decide, by decide, by decide, ?_, ?_⟩, by decide,
    fun ev heap => ?_⟩
  · exact List.length_replicate _ _
  · intro b hb
    rw [List.eq_of_mem_replicate hb]
    decide
  · exact encoderCall_overflow _ _ _ (by decide)

/-- C2 (as stated, refuted): for the RGB pixel `(85, 3, 16)` the exact weighted sum is
`29000 / 1000 = 29`, but the weight `0.299f` lies below 0.299: however the build rounds
or fuses the operations, the luminance the code computes is `28`, and the alpha that
reaches the encoder is `227`. -/
theorem rgb_luminance_not_exact_truncation :
    grayValue FloatEval.strict 3 [85, 3, 16] 0 ≠ (299 * 85 + 587 * 3 + 114 * 16) / 1000 ∧
    (299 * 85 + 587 * 3 + 114 * 16) / 1000 = 29 ∧
    FloatEval.all.map (fun ev => grayValue ev 3 [85, 3, 16] 0) =
      [28, 28, 28, 28, 28, 28, 28] ∧
    encoderCall FloatEval.strict ⟨1, 1, 3, [85, 3, 16]⟩ (fun _ => 0) =
      some ⟨1, 1, 4, [0, 0, 0, 227], 4⟩ := by
  decide

/-- C2 (amended): for a valid source whose output size `w * h * 4` fits an `int`, with
three or four channels, and every pixel, with first three bytes `R`, `G`, `B`, the
luminance is the integer part of the weighted sum as the build evaluates it in `float`
(weights `0.299f`, `0.587f`, `0.114f`; operations rounded one by one, fused, or kept
wider); it equals the truncated exact sum `(299 R + 587 G + 114 B) / 1000` or, only where
that exact sum is an integer, one less; the alpha that reaches the encoder for the pixel
is 255 minus that luminance. -/
theorem rgb_luminance_single_precision (ev : FloatEval) (d : Decoded) (hd : d.Valid)
    (hc : d.channels = 3 ∨ d.channels = 4) (hfit : d.width * d.height * 4 ≤ INT_MAX)
    (heap : Nat → Nat) (i : Nat) (hi : i < d.width * d.height) :
    ∃ call R G B, encoderCall ev d heap = some call ∧
      d.imageData[i * d.channels]? = some R ∧
      d.imageData[i * d.channels + 1]? = some G ∧
      d.imageData[i * d.channels + 2]? = some B ∧
      grayValue ev d.channels d.imageData (i * d.channels) = (weightedSum ev R G B).trunc ∧
      ((weightedSum ev R G B).trunc = (299 * R + 587 * G + 114 * B) / 1000 ∨
        ((weightedSum ev R G B).trunc + 1 = (299 * R + 587 * G + 114 * B) / 1000 ∧
          (299 * R + 587 * G + 114 * B) % 1000 = 0)) ∧
      call.data[4 * i + 3]? = some (255 - (weightedSum ev R G B).trunc) := by
  obtain ⟨call, hcall, _, _, _, _, _, ha⟩ := encoderCall_alpha ev d hd hfit heap i hi
  have h0 := src_index_lt d hd i 0 hi (by omega)
  have h1 := src_index_lt d hd i 1 hi (by omega)
  have h2 := src_index_lt d hd i 2 hi (by omega)
  have hg := grayValue_rgb ev d.channels d.imageData (i * d.channels) (by omega)
    (getD_lt_256 d hd _) (getD_lt_256 d hd _) (getD_lt_256 d hd _)
  have hb := weightedSum_trunc_bounds ev _ _ _ (getD_lt_256 d hd (i * d.channels))
    (getD_lt_256 d hd (i * d.channels + 1)) (getD_lt_256 d hd (i * d.channels + 2))
  refine ⟨call, d.imageData.getD (i * d.channels) 0,
    d.imageData.getD (i * d.channels + 1) 0, d.imageData.getD (i * d.channels + 2) 0, hcall,
    getElem?_eq_some_getD _ _ (by omega), getElem?_eq_some_getD _ _ h1,
    getElem?_eq_some_getD _ _ h2, hg, ?_, ?_⟩
  · obtain ⟨_, hle, hge, hint⟩ := hb
    by_cases heq : (weightedSum ev (d.imageData.getD (i * d.channels) 0)
        (d.imageData.getD (i * d.channels + 1) 0)
        (d.imageData.getD (i * d.channels + 2) 0)).trunc =
        (299 * d.imageData.getD (i * d.channels) 0 +
          587 * d.imageData.getD (i * d.channels + 1) 0 +
          114 * d.imageData.getD (i * d.channels + 2) 0) / 1000
    · exact Or.inl heq
    · exact Or.inr ⟨by omega, hint heq⟩
  · rw [ha, hg]

theorem rgb_luminance_single_precision_witness :
    ∃ call R G B,
      encoderCall FloatEval.fuseFirstThird ⟨1, 1, 3, [85, 3, 16]⟩ (fun _ => 7) = some call ∧
      [85, 3, 16][0 * 3]? = some R ∧
      [85, 3, 16][0 * 3 + 1]? = some G ∧
      [85, 3, 16][0 * 3 + 2]? = some B ∧
      grayValue FloatEval.fuseFirstThird 3 [85, 3, 16] (0 * 3) =
        (weightedSum FloatEval.fuseFirstThird R G B).trunc ∧
      ((weightedSum FloatEval.fuseFirstThird R G B).trunc =
          (299 * R + 587 * G + 114 * B) / 1000 ∨
        ((weightedSum FloatEval.fuseFirstThird R G B).trunc + 1 =
            (299 * R + 587 * G + 114 * B) / 1000 ∧
          (299 * R + 587 * G + 114 * B) % 1000 = 0)) ∧
      call.data[4 * 0 + 3]? = some (255 - (weightedSum FloatEval.fuseFirstThird R G B).trunc) :=
  rgb_luminance_single_precision FloatEval.fuseFirstThird ⟨1, 1, 3, [85, 3, 16]⟩
    ⟨by decide, by decide, by decide, by decide, rfl, by decide⟩ (Or.inl rfl) (by decide)
    (fun _ => 7) 0 (by decide)

/-- C3 (failing input): the valid all-white 30000 x 20000 one-channel source needs an
output of `30000 * 20000 * 4 = 2400000000` bytes; the `int` expression
`width * height * outputChannels` overflows, so no output pixel, transparent or not, is
produced. -/
theorem all_white_unreached_on_large_source :
    Decoded.Valid ⟨30000, 20000, 1, List.replicate (30000 * 20000) 255⟩ ∧
    (∀ b ∈ List.replicate (30000 * 20000) 255, b = 255) ∧
    INT_MAX < 30000 * 20000 * outputChannels ∧
    ∀ ev heap,
      encoderCall ev ⟨30000, 20000, 1, List.replicate (30000 * 20000) 255⟩ heap = none := by
  refine ⟨⟨by decide, by decide, by decide, by decide, ?_, ?_⟩,
    fun b hb => List.eq_of_mem_replicate hb, by decide, fun ev heap => ?_⟩
  · exact (List.length_replicate _ _).trans (Nat.mul_one _).symm
  · intro b hb
    rw [List.eq_of_mem_replicate hb]
    decide
  · exact encoderCall_overflow _ _ _ (by decide)

/-- C4 (failing input): the valid 32768 x 32769 one-channel source needs an output of
`32768 * 32769 * 4 = 4295098368` bytes; the `int` expression
`width * height * outputChannels` overflows (a wrapping multiplication gives 131072), so
no buffer of `w * h * 4` bytes is allocated, filled and handed to the encoder. -/
theorem output_size_overflows_int :
    Decoded.Valid ⟨32768, 32769, 1, List.replicate (32768 * 32769) 255⟩ ∧
    INT_MAX < 32768 * 32769 * outputChannels ∧
    (32768 * 32769 * outputChannels) % 2 ^ 32 = 131072 ∧
    ∀ ev heap,
      encoderCall ev ⟨32768, 32769, 1, List.replicate (32768 * 32769) 255⟩ heap = none := by
  refine ⟨⟨by decide, by decide, by decide, by decide, ?_, ?_⟩, by decide, by decide,
    fun ev heap => ?_⟩
  · exact (List.length_replicate _ _).trans (Nat.mul_one _).symm
  · intro b hb
    rw [List.eq_of_mem_replicate hb]
    decide
  · exact encoderCall_overflow _ _ _ (by decide)

theorem outputByte_congr (ev : FloatEval) (channels : Nat) (src1 src2 : List Nat)
    (hc : channels = 2 ∨ channels = 4)
    (hagree : ∀ k, k % channels ≠ channels - 1 → src1[k]? = src2[k]?) :
    outputByte ev channels src1 = outputByte ev channels src2 := by
  funext j
  have hget : ∀ k, k % channels ≠ channels - 1 → src1.getD k 0 = src2.getD k 0 := by
    intro k hk
    rw [List.getD_eq_getElem?_getD, List.getD_eq_getElem?_getD, hagree k hk]
  unfold outputByte grayValue
  rcases hc with hc | hc
  · subst hc
    have h0 := hget (j / 4 * 2) (by omega)
    simp only [show ¬ (2 ≥ 3) by decide, if_false, h0]
  · subst hc
    have h0 := hget (j / 4 * 4) (by omega)
    have h1 := hget (j / 4 * 4 + 1) (by omega)
    have h2 := hget (j / 4 * 4 + 2) (by omega)
    simp only [show 4 ≥ 3 by decide, if_true, h0, h1, h2]

/-- C7: the alpha channel of the source never influences the output: two valid sources
of the same width, height and channel count 2 or 4 whose buffers agree on every byte
except the last byte of each pixel give identical encoder calls and identical output
buffers, byte for byte, whatever the freshly allocated memory held. -/
theorem source_alpha_is_ignored (ev : FloatEval)
    (d1 d2 : Decoded) (_hd1 : d1.Valid) (_hd2 : d2.Valid)
    (hw : d1.width = d2.width) (hh : d1.height = d2.height)
    (hcc : d1.channels = d2.channels) (hc : d1.channels = 2 ∨ d1.channels = 4)
    (hagree : ∀ k, k % d1.channels ≠ d1.channels - 1 →
      d1.imageData[k]? = d2.imageData[k]?) :
    (∀ heap1 heap2, encoderCall ev d1 heap1 = encoderCall ev d2 heap2) ∧
    (∀ out1 out2 : List Nat, out1.length = d1.width * d1.height * 4 →
      out2.length = d1.width * d1.height * 4 →
      pixelLoop ev d1.width d1.height d1.channels d1.imageData out1 =
        pixelLoop ev d2.width d2.height d2.channels d2.imageData out2) := by
  have hb := outputByte_congr ev d1.channels d1.imageData d2.imageData hc hagree
  constructor
  · intro heap1 heap2
    by_cases hfit : d1.width * d1.height * 4 ≤ INT_MAX
    · rw [encoderCall_of_fits ev d1 heap1 hfit,
        encoderCall_of_fits ev d2 heap2 (by rw [← hw, ← hh]; exact hfit),
        ← hw, ← hh, ← hcc, hb]
    · rw [encoderCall_overflow ev d1 heap1 (by omega),
        encoderCall_overflow ev d2 heap2 (by rw [← hw, ← hh]; omega)]
  · intro out1 out2 h1 h2
    rw [← hw, ← hh, ← hcc, pixelLoop_eq _ _ _ _ _ _ h1, pixelLoop_eq _ _ _ _ _ _ h2, hb]

theorem source_alpha_is_ignored_witness :
    (∀ heap1 heap2, encoderCall FloatEval.strict ⟨1, 2, 2, [10, 0, 200, 255]⟩ heap1 =
      encoderCall FloatEval.strict ⟨1, 2, 2, [10, 77, 200, 3]⟩ heap2) ∧
    (∀ out1 out2 : List Nat, out1.length = 1 * 2 * 4 → out2.length = 1 * 2 * 4 →
      pixelLoop FloatEval.strict 1 2 2 [10, 0, 200, 255] out1 =
        pixelLoop FloatEval.strict 1 2 2 [10, 77, 200, 3] out2) :=
  source_alpha_is_ignored FloatEval.strict ⟨1, 2, 2, [10, 0, 200, 255]⟩
    ⟨1, 2, 2, [10, 77, 200, 3]⟩
    ⟨by decide, by decide, by decide, by decide, rfl, by decide⟩
    ⟨by decide, by decide, by decide, by decide, rfl, by decide⟩ rfl rfl rfl (Or.inl rfl)
    (by
      intro k hk
      match k with
      | 0 => rfl
      | 1 => exact absurd rfl hk
      | 2 => rfl
      | 3 => exact absurd rfl hk
      | k + 4 => rfl)

/-- C8 (failing input): on the valid 32768 x 16384 one-channel buffer the size
`width * height * outputChannels` is `2 ^ 31 = INT_MAX + 1`: the `int` multiplication
overflows, no `w * h * 4` output buffer exists for the writes to fall into, and
`removeWhiteBackground` does not run to a result. -/
theorem transform_not_total_on_large_buffer :
    Decoded.Valid ⟨32768, 16384, 1, List.replicate (32768 * 16384) 0⟩ ∧
    intMul (32768 * 16384) outputChannels = none ∧
    (∀ heap, allocOutput 32768 16384 heap = none) ∧
    (∀ ev heap write, removeWhiteBackground ev
      (some ⟨32768, 16384, 1, List.replicate (32768 * 16384) 0⟩) heap write = none) := by
  refine ⟨⟨by decide, by decide, by decide, by decide, ?_, ?_⟩, by decide, fun heap => ?_,
    fun ev heap write => ?_⟩
  · exact (List.length_replicate _ _).trans (Nat.mul_one _).symm
  · intro b hb
    rw [List.eq_of_mem_replicate hb]
    decide
  · exact allocOutput_overflow _ _ _ (by decide)
  · have h := encoderCall_overflow ev
      ⟨32768, 16384, 1, List.replicate (32768 * 16384) 0⟩ heap (by decide)
    simp only [removeWhiteBackground, h]

/-! ## Path decomposition -/

theorem takeWhile_append_stop (p : Char → Bool) (l r : List Char) (a : Char)
    (hl : ∀ x ∈ l, p x = true) (ha : p a = false) :
    (l ++ a :: r).takeWhile p = l := by
  rw [List.takeWhile_append_of_pos hl, List.takeWhile_cons, ha]
  simp

theorem dropWhile_append_stop (p : Char → Bool) (l r : List Char) (a : Char)
    (hl : ∀ x ∈ l, p x = true) (ha : p a = false) :
    (l ++ a :: r).dropWhile p = a :: r := by
  rw [List.dropWhile_append_of_pos hl, List.dropWhile_cons, ha]
  simp

theorem takeWhile_all (p : Char → Bool) (l : List Char) (hl : ∀ x ∈ l, p x = true) :
    l.takeWhile p = l := by
  have := @List.takeWhile_append_of_pos _ p l [] hl
  simpa using this

theorem dropWhile_all (p : Char → Bool) (l : List Char) (hl : ∀ x ∈ l, p x = true) :
    l.dropWhile p = [] := by
  have := @List.dropWhile_append_of_pos _ p l [] hl
  simpa using this

theorem not_sep_of_not_mem (c : Char) (f : List Char) (hf : c ∉ f) :
    ∀ x ∈ f.reverse, (x != c) = true := by
  intro x hx
  rw [List.mem_reverse] at hx
  simp only [bne_iff_ne, ne_eq]
  rintro rfl
  exact hf hx

theorem filename_dir (d f : List Char) (hf : '/' ∉ f) :
    Path.filename (d ++ '/' :: f) = f := by
  unfold Path.filename
  rw [List.reverse_append, List.reverse_cons, List.append_assoc, List.singleton_append,
    takeWhile_append_stop _ _ _ _ (not_sep_of_not_mem _ _ hf) (by decide), List.reverse_reverse]

theorem filename_plain (f : List Char) (hf : '/' ∉ f) : Path.filename f = f := by
  unfold Path.filename
  rw [takeWhile_all _ _ (not_sep_of_not_mem _ _ hf), List.reverse_reverse]

theorem beforeLastDot_append (s e : List Char) (he : '.' ∉ e) :
    Path.beforeLastDot (s ++ '.' :: e) = s := by
  unfold Path.beforeLastDot
  rw [List.reverse_append, List.reverse_cons, List.append_assoc, List.singleton_append,
    dropWhile_append_stop _ _ _ _ (not_sep_of_not_mem _ _ he) (by decide)]
  simp

theorem parent_path_dir (d f : List Char) (hd : d ≠ []) (hlast : d.getLast? ≠ some '/')
    (hf : '/' ∉ f) : Path.parent_path (d ++ '/' :: f) = d := by
  obtain ⟨c, t, hrev⟩ : ∃ c t, d.reverse = c :: t := by
    cases h : d.reverse with
    | nil => exact absurd (List.reverse_eq_nil_iff.mp h) hd
    | cons c t => exact ⟨c, t, rfl⟩
  have hc : c ≠ '/' := by
    intro h
    apply hlast
    rw [List.getLast?_eq_head?_reverse, hrev, h]
    rfl
  have hall : (d ++ '/' :: f).all (fun c => c == '/') = false := by
    rw [Bool.eq_false_iff]
    intro hall
    rw [List.all_eq_true] at hall
    have hmem : c ∈ d ++ '/' :: f := by
      apply List.mem_append_left
      rw [← List.mem_reverse, hrev]
      exact List.mem_cons_self _ _
    have := hall c hmem
    simp at this
    exact hc this
  unfold Path.parent_path
  rw [hall]
  simp only [Bool.false_eq_true, if_false]
  rw [List.reverse_append, List.reverse_cons, List.append_assoc, List.singleton_append,
    dropWhile_append_stop _ _ _ _ (not_sep_of_not_mem _ _ hf) (by decide), hrev]
  have h1 : (c == '/') = false := by simpa using hc
  simp only [List.dropWhile_cons, beq_self_eq_true, if_true, h1, Bool.false_eq_true, if_false]
  rw [← hrev]
  simp [hd]

theorem parent_path_plain (f : List Char) (hne : f ≠ []) (hf : '/' ∉ f) :
    Path.parent_path f = [] := by
  obtain ⟨c, t, rfl⟩ : ∃ c t, f = c :: t := by
    cases f with
    | nil => exact absurd rfl hne
    | cons c t => exact ⟨c, t, rfl⟩
  have hc : c ≠ '/' := by
    intro h
    exact hf (h ▸ List.mem_cons_self _ _)
  have h1 : (c == '/') = false := by simpa using hc
  unfold Path.parent_path
  rw [dropWhile_all _ _ (not_sep_of_not_mem _ _ hf)]
  simp [h1, hc]

theorem stem_of_name_ext (s e : List Char) (hs : s ≠ []) (hdot : '.' ∉ e)
    (hne : ¬ (s = ['.'] ∧ e = [])) :
    ∀ p, Path.filename p = s ++ '.' :: e → Path.stem p = s := by
  intro p hp
  obtain ⟨c, t, rfl⟩ : ∃ c t, s = c :: t := by
    cases s with
    | nil => exact absurd rfl hs
    | cons c t => exact ⟨c, t, rfl⟩
  unfold Path.stem
  rw [hp]
  have h1 : ¬ (c :: t ++ '.' :: e = ['.'] ∨ c :: t ++ '.' :: e = ['.', '.']) := by
    rintro (h | h)
    · have := congrArg List.length h
      simp at this
    · have h2 := congrArg List.length h
      simp at h2
      have ht : t = [] := List.eq_nil_of_length_eq_zero (by omega)
      have he : e = [] := List.eq_nil_of_length_eq_zero (by omega)
      subst ht
      subst he
      simp at h
      exact hne ⟨by rw [h], rfl⟩
  rw [if_neg h1]
  simp only [List.cons_append]
  rw [if_pos (by simp), beforeLastDot_append _ _ hdot]

theorem stem_of_dotdot : ∀ p, Path.filename p = ['.', '.'] → Path.stem p = ['.', '.'] := by
  intro p hp
  unfold Path.stem
  rw [hp]
  simp

theorem stem_of_dotfile (e : List Char) (he : e ≠ []) (hdot : '.' ∉ e) :
    ∀ p, Path.filename p = '.' :: e → Path.stem p = '.' :: e := by
  intro p hp
  unfold Path.stem
  rw [hp]
  have h1 : ¬ ('.' :: e = ['.'] ∨ '.' :: e = ['.', '.']) := by
    rintro (h | h)
    · exact he (List.cons.inj h).2
    · rw [(List.cons.inj h).2] at hdot
      exact hdot (List.mem_cons_self _ _)
  simp only [h1, if_false]
  rw [if_neg hdot]

/-! ## Claims on the output path -/

/-- C6 (as stated, refuted): `foo/..` is of the form `d/s.e` with `d = foo`, `s = .` and
`e` empty, and `..` is of the form `s.e`; the results are `foo/.._nobg.png` and
`.._nobg.png`, not `foo/._nobg.png` and `._nobg.png`. -/
theorem dotdot_is_not_name_ext :
    "foo/..".toList = "foo".toList ++ '/' :: (".".toList ++ '.' :: "".toList) ∧
    generateOutputPath "foo/..".toList = "foo/.._nobg.png".toList ∧
    generateOutputPath "foo/..".toList ≠
      "foo".toList ++ '/' :: (".".toList ++ "_nobg.png".toList) ∧
    generateOutputPath "..".toList = ".._nobg.png".toList ∧
    generateOutputPath "..".toList ≠ ".".toList ++ "_nobg.png".toList := by
  decide

/-- C6 (amended): for an input `d/s.e` (`d` a non-empty directory path not ending in `/`,
`s` a non-empty name without `/`, `e` an extension without `.` or `/`) whose filename
`s.e` is not `..` (`s = .` with `e` empty), `generateOutputPath` returns `d/s_nobg.png`,
and for such an input `s.e` without directory it returns `s_nobg.png`; the filename `..`
has no extension, its stem is `..`, and the results are `d/.._nobg.png` and
`.._nobg.png`; `foo/bar.jpg` gives `foo/bar_nobg.png` and `bar.jpg` gives
`bar_nobg.png`. -/
theorem output_path_of_name_ext (d s e : List Char) (hd : d ≠ [])
    (hlast : d.getLast? ≠ some '/') (hs : s ≠ []) (hss : '/' ∉ s) (hdot : '.' ∉ e)
    (hes : '/' ∉ e) (hne : ¬ (s = ['.'] ∧ e = [])) :
    generateOutputPath (d ++ '/' :: (s ++ '.' :: e)) = d ++ '/' :: (s ++ "_nobg.png".toList) ∧
    generateOutputPath (s ++ '.' :: e) = s ++ "_nobg.png".toList ∧
    generateOutputPath (d ++ '/' :: ['.', '.']) = d ++ '/' :: "..".toList ++ "_nobg.png".toList ∧
    generateOutputPath ['.', '.'] = "..".toList ++ "_nobg.png".toList ∧
    generateOutputPath "foo/bar.jpg".toList = "foo/bar_nobg.png".toList ∧
    generateOutputPath "bar.jpg".toList = "bar_nobg.png".toList := by
  have hf : '/' ∉ s ++ '.' :: e := by
    intro h
    rcases List.mem_append.mp h with h | h
    · exact hss h
    · rcases List.mem_cons.mp h with h | h
      · exact absurd h (by decide)
      · exact hes h
  have hne2 : s ++ '.' :: e ≠ [] := by simp
  have hdd : '/' ∉ ['.', '.'] := by decide
  refine ⟨?_, ?_, ?_, by decide, by decide, by decide⟩
  · unfold generateOutputPath
    rw [stem_of_name_ext s e hs hdot hne _ (filename_dir d _ hf),
      parent_path_dir d _ hd hlast hf]
    simp [hd]
  · unfold generateOutputPath
    rw [stem_of_name_ext s e hs hdot hne _ (filename_plain _ hf),
      parent_path_plain _ hne2 hf]
    simp
  · unfold generateOutputPath
    rw [stem_of_dotdot _ (filename_dir d _ hdd), parent_path_dir d _ hd hlast hdd]
    simp [hd]

theorem output_path_of_name_ext_witness :
    generateOutputPath ("a/b".toList ++ '/' :: ("x.tar".toList ++ '.' :: "".toList)) =
      "a/b".toList ++ '/' :: ("x.tar".toList ++ "_nobg.png".toList) ∧
    generateOutputPath ("x.tar".toList ++ '.' :: "".toList) =
      "x.tar".toList ++ "_nobg.png".toList ∧
    generateOutputPath ("a/b".toList ++ '/' :: ['.', '.']) =
      "a/b".toList ++ '/' :: "..".toList ++ "_nobg.png".toList ∧
    generateOutputPath ['.', '.'] = "..".toList ++ "_nobg.png".toList ∧
    generateOutputPath "foo/bar.jpg".toList = "foo/bar_nobg.png".toList ∧
    generateOutputPath "bar.jpg".toList = "bar_nobg.png".toList :=
  output_path_of_name_ext "a/b".toList "x.tar".toList "".toList (by decide) (by decide)
    (by decide) (by decide) (by decide) (by decide) (by decide)

/-- C9 (as stated, refuted): the stem of the dotfile `.png` is `.png`, not empty, and the
output paths are `.png_nobg.png` and `dir/.png_nobg.png`, not `_nobg.png` and
`dir/_nobg.png`. -/
theorem dotfile_stem_not_empty :
    Path.stem ".png".toList = ".png".toList ∧
    generateOutputPath ".png".toList = ".png_nobg.png".toList ∧
    generateOutputPath ".png".toList ≠ "_nobg.png".toList ∧
    generateOutputPath "dir/.png".toList = "dir/.png_nobg.png".toList ∧
    generateOutputPath "dir/.png".toList ≠ "dir/_nobg.png".toList := by
  decide

/-- C9 (amended): for a dotfile input whose filename is `.` followed by `e` (`e`
non-empty, without `.` or `/`) the stem is the whole filename, a leading period not
starting an extension, and `generateOutputPath` returns that filename followed by
`_nobg.png` in the directory of the input. -/
theorem output_path_of_dotfile (d e : List Char) (hd : d ≠ [])
    (hlast : d.getLast? ≠ some '/') (he : e ≠ []) (hdot : '.' ∉ e) (hes : '/' ∉ e) :
    Path.stem ('.' :: e) = '.' :: e ∧
    Path.stem (d ++ '/' :: '.' :: e) = '.' :: e ∧
    generateOutputPath ('.' :: e) = '.' :: e ++ "_nobg.png".toList ∧
    generateOutputPath (d ++ '/' :: '.' :: e) = d ++ '/' :: '.' :: e ++ "_nobg.png".toList := by
  have hf : '/' ∉ '.' :: e := by
    intro h
    rcases List.mem_cons.mp h with h | h
    · exact absurd h (by decide)
    · exact hes h
  have hne : '.' :: e ≠ [] := by simp
  have h1 := stem_of_dotfile e he hdot _ (filename_plain _ hf)
  have h2 := stem_of_dotfile e he hdot _ (filename_dir d _ hf)
  refine ⟨h1, h2, ?_, ?_⟩
  · unfold generateOutputPath
    rw [h1, parent_path_plain _ hne hf]
    simp
  · unfold generateOutputPath
    rw [h2, parent_path_dir d _ hd hlast hf]
    simp [hd]

theorem output_path_of_dotfile_witness :
    Path.stem ('.' :: "png".toList) = '.' :: "png".toList ∧
    Path.stem ("dir".toList ++ '/' :: '.' :: "png".toList) = '.' :: "png".toList ∧
    generateOutputPath ('.' :: "png".toList) = '.' :: "png".toList ++ "_nobg.png".toList ∧
    generateOutputPath ("dir".toList ++ '/' :: '.' :: "png".toList) =
      "dir".toList ++ '/' :: '.' :: "png".toList ++ "_nobg.png".toList :=
  output_path_of_dotfile "dir".toList "png".toList (by decide) (by decide) (by decide)
    (by decide) (by decide)

/-! ## main -/

/-- The value `removeWhiteBackground` returns: `false` after a failed decode, `false`
after a failed write, `true` after a successful write; no value when the output size
overflows. -/
theorem removeWhiteBackground_result (ev : FloatEval) (heap : Nat → Nat)
    (stbi_write_png : PngWrite → Int) :
    removeWhiteBackground ev none heap stbi_write_png = some false ∧
    (∀ d call, encoderCall ev d heap = some call → stbi_write_png call = 0 →
      removeWhiteBackground ev (some d) heap stbi_write_png = some false) ∧
    (∀ d call, encoderCall ev d heap = some call → stbi_write_png call ≠ 0 →
      removeWhiteBackground ev (some d) heap stbi_write_png = some true) ∧
    (∀ d, encoderCall ev d heap = none →
      removeWhiteBackground ev (some d) heap stbi_write_png = none) := by
  refine ⟨rfl, ?_, ?_, ?_⟩
  · intro d call hcall hw
    simp [removeWhiteBackground, hcall, hw]
  · intro d call hcall hw
    simp [removeWhiteBackground, hcall, hw]
  · intro d hcall
    simp [removeWhiteBackground, hcall]

/-- Whenever `main` returns, the status is 0 exactly when `argc = 2`, the input exists and
`removeWhiteBackground` returned `true`, and it is 1 otherwise. -/
theorem main_status_of_return (ev : FloatEval) (env : Env) (argv : List (List Char))
    (r : Run) (h : main ev env argv = some r) :
    (r.status = 0 ↔
      (argv.length = 2 ∧ env.fileExists (argv.getD 1 []) = some true ∧
        removeWhiteBackground ev (env.stbi_load (argv.getD 1 [])) env.heap
          (env.stbi_write_png (generateOutputPath (argv.getD 1 []))) = some true)) ∧
    (r.status ≠ 0 → r.status = 1) := by
  unfold main at h
  generalize argv.getD 1 [] = inp at h ⊢
  by_cases h1 : argv.length = 2
  · rw [if_neg (by simpa using h1)] at h
    simp only at h
    cases h2 : env.fileExists inp with
    | none => simp [h2] at h
    | some b =>
      cases b with
      | false =>
        simp only [h2] at h
        cases h
        simp [h2]
      | true =>
        simp only [h2] at h
        cases h3 : removeWhiteBackground ev (env.stbi_load inp) env.heap
            (env.stbi_write_png (generateOutputPath inp)) with
        | none => simp [h3] at h
        | some b =>
          cases b with
          | false =>
            simp only [h3] at h
            cases h
            simp [h1]
          | true =>
            simp only [h3] at h
            cases h
            simp [h1]
  · rw [if_pos h1] at h
    cases h
    simp [h1]

/-- With `argc ≠ 2`, or with a path that `std::filesystem::exists` reports missing,
`main` returns 1 without calling `generateOutputPath` or `removeWhiteBackground`. -/
theorem main_early_return (ev : FloatEval) (env : Env) (argv : List (List Char)) :
    (argv.length ≠ 2 → main ev env argv = some ⟨1, [Action.printUsage (argv.getD 0 [])]⟩) ∧
    (argv.length = 2 → env.fileExists (argv.getD 1 []) = some false →
      main ev env argv = some ⟨1, [Action.reportMissingInput (argv.getD 1 [])]⟩) := by
  constructor
  · intro h1
    unfold main
    rw [if_pos h1]
  · intro h1 h2
    unfold main
    rw [if_neg (by simpa using h1)]
    simp only [h2]

/-- Four runs of `main`: no argument, a missing input, a processed input, and a failed
write. -/
theorem main_runs (ev : FloatEval) :
    main ev ⟨fun _ => some true, fun _ => none, fun _ => 0, fun _ _ => 1⟩ ["wbr".toList] =
      some ⟨1, [Action.printUsage "wbr".toList]⟩ ∧
    main ev ⟨fun _ => some false, fun _ => none, fun _ => 0, fun _ _ => 1⟩
        ["wbr".toList, "a.jpg".toList] =
      some ⟨1, [Action.reportMissingInput "a.jpg".toList]⟩ ∧
    main ev ⟨fun _ => some true, fun _ => some ⟨2, 1, 1, [0, 255]⟩, fun _ => 0, fun _ _ => 1⟩
        ["wbr".toList, "dir/a.jpg".toList] =
      some ⟨0, [Action.generateOutputPath "dir/a.jpg".toList,
        Action.removeWhiteBackground "dir/a.jpg".toList "dir/a_nobg.png".toList]⟩ ∧
    main ev ⟨fun _ => some true, fun _ => some ⟨2, 1, 1, [0, 255]⟩, fun _ => 0, fun _ _ => 0⟩
        ["wbr".toList, "dir/a.jpg".toList] =
      some ⟨1, [Action.generateOutputPath "dir/a.jpg".toList,
        Action.removeWhiteBackground "dir/a.jpg".toList "dir/a_nobg.png".toList]⟩ := by
  cases ev <;> decide

/-- C10 (failing input): `main` is started with one argument, the path of an existing
file that decodes to the valid 40000 x 20000 one-channel image.  Inside
`removeWhiteBackground` the `int` size `width * height * outputChannels = 3200000000`
overflows and the call does not run to a result, so `main` returns no status: neither 0
nor the 1 the claim gives for every case other than success. -/
theorem main_no_status_on_large_source :
    Decoded.Valid ⟨40000, 20000, 1, List.replicate (40000 * 20000) 0⟩ ∧
    INT_MAX < 40000 * 20000 * outputChannels ∧
    ∀ ev heap write,
      main ev ⟨fun _ => some true,
          fun _ => some ⟨40000, 20000, 1, List.replicate (40000 * 20000) 0⟩, heap, write⟩
        ["wbr".toList, "big.png".toList] = none := by
  refine ⟨⟨by decide, by decide, by decide, by decide, ?_, ?_⟩, by decide,
    fun ev heap write => ?_⟩
  · exact (List.length_replicate _ _).trans (Nat.mul_one _).symm
  · intro b hb
    rw [List.eq_of_mem_replicate hb]
    decide
  · have h := encoderCall_overflow ev
      ⟨40000, 20000, 1, List.replicate (40000 * 20000) 0⟩ heap (by decide)
    have h2 : removeWhiteBackground ev
        (some ⟨40000, 20000, 1, List.replicate (40000 * 20000) 0⟩) heap
        (write (generateOutputPath "big.png".toList)) = none := by
      simp only [removeWhiteBackground, h]
    have hlen : ¬ (["wbr".toList, "big.png".toList].length ≠ 2) := by decide
    have hin : ["wbr".toList, "big.png".toList].getD 1 [] = "big.png".toList := rfl
    unfold main
    rw [if_neg hlen]
    simp only [hin, h2]

end Wbr
